import Mathlib

/-!
Shallow embedding of the `fun` namespace of the proj-geom-cpp repository.

Two source variants of the same header `fractions.hpp` are present:
`src/include/projgeom/fractions.hpp` (embedded below in namespace `Hpp`)
and `src/unnamed/part_000` (embedded in namespace `P0`).  They share the
integer helpers `abs`, `gcd_recur` and `gcd` but differ in `normalize`,
`reciprocal`, the comparison operators and the arithmetic operators.

The integral template parameter `Z` is modelled as `ℤ`; C++ `/` and `%`
on integers truncate toward zero, so they are modelled by `Int.tdiv` and
`Int.tmod`.  Integer overflow is declared out of scope by the design, so
unbounded integers are the intended model.
-/

namespace Fun

/-- Embeds `fun::abs` for signed `Z`: `(a < T(0)) ? -a : a` (identical in
both source variants; the unsigned overload is not relevant over `ℤ`). -/
def abs (a : ℤ) : ℤ := if a < 0 then -a else a

/-- Fuel-indexed unfolding of `fun::gcd_recur`.  The fuel argument only
makes the C++ recursion structural; starting from `n.natAbs + 1` (as
`gcd_recur` below does) it never runs out, because `|m % n| < |n|` at
every recursive call. -/
def gcdRecurFuel : Nat → ℤ → ℤ → ℤ
  | 0, m, _ => Fun.abs m
  | fuel + 1, m, n => if n = 0 then Fun.abs m else gcdRecurFuel fuel n (Int.tmod m n)

/-- Embeds `fun::gcd_recur`:
`if (n == 0) { return abs(m); } return gcd_recur(n, m % n);`. -/
def gcd_recur (m n : ℤ) : ℤ := gcdRecurFuel (n.natAbs + 1) m n

/-- Embeds `fun::gcd`:
`if (m == 0) { return abs(n); } return gcd_recur(m, n);`. -/
def gcd (m n : ℤ) : ℤ := if m = 0 then Fun.abs n else Fun.gcd_recur m n

theorem abs_eq_natAbs (a : ℤ) : Fun.abs a = (a.natAbs : ℤ) := by
  rcases le_or_lt 0 a with h | h
  · rw [Fun.abs, if_neg (not_lt.2 h), Int.natAbs_of_nonneg h]
  · rw [Fun.abs, if_pos h, ← Int.natAbs_neg, Int.natAbs_of_nonneg (by omega)]

theorem natAbs_tmod (a b : ℤ) : (Int.tmod a b).natAbs = a.natAbs % b.natAbs := by
  cases a <;> cases b <;>
    simp only [Int.tmod, Int.natAbs_neg, Int.natAbs_ofNat, Int.natAbs_negSucc,
      Nat.succ_eq_add_one] <;> rfl

/-- One step of Euclid's algorithm with the truncated remainder preserves
the (Mathlib) gcd. -/
theorem int_gcd_tmod (m n : ℤ) : Int.gcd n (Int.tmod m n) = Int.gcd m n := by
  rw [Int.gcd, Int.gcd, natAbs_tmod, Nat.gcd_comm, ← Nat.gcd_rec, Nat.gcd_comm]

theorem gcdRecurFuel_eq (fuel : Nat) : ∀ m n : ℤ, n.natAbs < fuel →
    gcdRecurFuel fuel m n = (Int.gcd m n : ℤ) := by
  induction fuel with
  | zero => intro m n h; omega
  | succ f ih =>
    intro m n h
    rw [gcdRecurFuel]
    by_cases hn : n = 0
    · subst hn; rw [if_pos rfl, abs_eq_natAbs, Int.gcd_zero_right]
    · have hlt : (Int.tmod m n).natAbs < n.natAbs := by
        rw [natAbs_tmod]; exact Nat.mod_lt _ (Int.natAbs_pos.2 hn)
      rw [if_neg hn, ih n (Int.tmod m n) (by omega), int_gcd_tmod]

/-- `fun::gcd_recur` computes the (non-negative) greatest common divisor. -/
theorem gcd_recur_eq (m n : ℤ) : Fun.gcd_recur m n = (Int.gcd m n : ℤ) :=
  gcdRecurFuel_eq _ m n (Nat.lt_succ_self _)

/-- `fun::gcd` computes the (non-negative) greatest common divisor. -/
theorem gcd_eq (m n : ℤ) : Fun.gcd m n = (Int.gcd m n : ℤ) := by
  rw [Fun.gcd]
  by_cases hm : m = 0
  · subst hm; rw [if_pos rfl, abs_eq_natAbs, Int.gcd_zero_left]
  · rw [if_neg hm, gcd_recur_eq]

/-- The base case of the source recursion: `gcd_recur(m, 0) == abs(m)`. -/
theorem gcd_recur_base (m : ℤ) : Fun.gcd_recur m 0 = Fun.abs m := rfl

/-- The recursive case of the source recursion:
`gcd_recur(m, n) == gcd_recur(n, m % n)` for `n != 0`. -/
theorem gcd_recur_step (m n : ℤ) (_hn : n ≠ 0) :
    Fun.gcd_recur m n = Fun.gcd_recur n (Int.tmod m n) := by
  rw [gcd_recur_eq, gcd_recur_eq, int_gcd_tmod]

theorem gcd_nonneg (m n : ℤ) : 0 ≤ Fun.gcd m n := by
  rw [gcd_eq]; exact Int.natCast_nonneg _

theorem gcd_eq_zero_iff {m n : ℤ} : Fun.gcd m n = 0 ↔ m = 0 ∧ n = 0 := by
  rw [gcd_eq]
  refine ⟨fun h => Int.gcd_eq_zero_iff.1 (by exact_mod_cast h), fun h => by
    rw [Int.gcd_eq_zero_iff.2 h, Nat.cast_zero]⟩

theorem gcd_dvd_left (m n : ℤ) : Fun.gcd m n ∣ m := by
  rw [gcd_eq]; exact Int.gcd_dvd_left

theorem gcd_dvd_right (m n : ℤ) : Fun.gcd m n ∣ n := by
  rw [gcd_eq]; exact Int.gcd_dvd_right

theorem gcd_neg_left (m n : ℤ) : Fun.gcd (-m) n = Fun.gcd m n := by
  rw [gcd_eq, gcd_eq, Int.neg_gcd]

theorem gcd_neg_right (m n : ℤ) : Fun.gcd m (-n) = Fun.gcd m n := by
  rw [gcd_eq, gcd_eq, Int.gcd_neg]

theorem gcd_pos_of_right {m : ℤ} (n : ℤ) (h : m ≠ 0) : 0 < Fun.gcd n m := by
  rw [gcd_eq]; exact_mod_cast Int.gcd_pos_of_ne_zero_right n h

theorem gcd_pos_of_left {m : ℤ} (n : ℤ) (h : m ≠ 0) : 0 < Fun.gcd m n := by
  rw [gcd_eq]; exact_mod_cast Int.gcd_pos_of_ne_zero_left n h

end Fun

/-- The value pair of `fun::Fraction<Z>`: fields `_num` and `_den`,
exposed through the accessors `num()` and `den()`. -/
structure Fraction where
  num : ℤ
  den : ℤ
  deriving DecidableEq, Repr

/-- The rational value `num/den` denoted by a fraction (defined when
`den ≠ 0`; `ℚ`-division makes it total with junk value `0` at `den = 0`). -/
def Fraction.val (f : Fraction) : ℚ := (f.num : ℚ) / (f.den : ℚ)

namespace P0

/-- Embeds `Fraction::normalize` of `src/unnamed/part_000` (lines 102-113):
first negate both components if `_den < 0`, then compute
`common = gcd(_num, _den)` and, unless `common` is `0` or `1`, divide both
components by it. -/
def normalize (f : Fraction) : Fraction :=
  let g := if f.den < 0 then Fraction.mk (-f.num) (-f.den) else f
  let common := Fun.gcd g.num g.den
  if common = 1 ∨ common = 0 then g
  else Fraction.mk (g.num.tdiv common) (g.den.tdiv common)

/-- Embeds the two-argument constructor `Fraction(Z num, Z den)` of
`src/unnamed/part_000` (lines 93-95): store the pair, then `normalize`. -/
def mk (num den : ℤ) : Fraction := normalize (Fraction.mk num den)

/-- Embeds `Fraction::operator==(const Fraction&)` of `src/unnamed/part_000`
(lines 197-211).  The identity fast path `this == &rhs` of the source can
only fire when the two values coincide, which the equal-denominator path
already answers `true`, so it needs no separate model. -/
def eq (a b : Fraction) : Bool :=
  if a.den = b.den then a.num = b.num
  else
    let common := Fun.gcd a.den b.den
    if common = 0 then b.den * a.num = a.den * b.num
    else
      let l := a.den.tdiv common
      let r := b.den.tdiv common
      r * a.num = l * b.num

/-- Embeds `Fraction::operator<(const Fraction&)` of `src/unnamed/part_000`
(lines 248-259). -/
def lt (a b : Fraction) : Bool :=
  if a.den = b.den then a.num < b.num
  else
    let common := Fun.gcd a.den b.den
    if common = 0 then b.den * a.num < a.den * b.num
    else
      let l := a.den.tdiv common
      let r := b.den.tdiv common
      r * a.num < l * b.num

/-- Embeds `Fraction::operator>(const Fraction&)` of `src/unnamed/part_000`
(line 277): `return rhs < *this;`. -/
def gt (a b : Fraction) : Bool := lt b a

/-- Embeds `Fraction::reciprocal()` of `src/unnamed/part_000`
(lines 366-372): swap `_num` and `_den`; if that leaves `_den < 0`,
negate both components. -/
def reciprocal (f : Fraction) : Fraction :=
  let g := Fraction.mk f.den f.num
  if g.den < 0 then Fraction.mk (-g.num) (-g.den) else g

/-- Embeds `Fraction::operator-()` of `src/unnamed/part_000`
(lines 500-504): negate the numerator of a copy. -/
def neg (f : Fraction) : Fraction := Fraction.mk (-f.num) f.den

/-- Embeds `Fraction::operator+(const Fraction&)` of `src/unnamed/part_000`
(lines 512-525). -/
def add (a b : Fraction) : Fraction :=
  if a.den = b.den then mk (a.num + b.num) a.den
  else
    let common := Fun.gcd a.den b.den
    if common = 0 then mk (b.den * a.num + a.den * b.num) 0
    else
      let l := a.den.tdiv common
      let r := b.den.tdiv common
      mk (r * a.num + l * b.num) (a.den * r)

/-- Embeds `Fraction::operator-(const Fraction&)` of `src/unnamed/part_000`
(line 533): `return *this + (-frac);`. -/
def sub (a b : Fraction) : Fraction := add a (neg b)

/-- Embeds `Fraction::operator*=(const Fraction&)` of `src/unnamed/part_000`
(lines 380-386), which is also `operator*` (lines 395-397): build
`f1 = Fraction(_num, rhs._den)` and `f2 = Fraction(rhs._num, _den)`
(each constructor call performs the gcd reduction), then multiply
componentwise. -/
def mul (a b : Fraction) : Fraction :=
  let f1 := mk a.num b.den
  let f2 := mk b.num a.den
  Fraction.mk (f1.num * f2.num) (f1.den * f2.den)

/-- Embeds `Fraction::operator/=(Fraction)` of `src/unnamed/part_000`
(lines 440-446), which is also `operator/` (lines 455-457): build
`f1 = Fraction(_num, rhs._num)` and `f2 = Fraction(rhs._den, _den)`,
then multiply componentwise. -/
def div (a b : Fraction) : Fraction :=
  let f1 := mk a.num b.num
  let f2 := mk b.den a.den
  Fraction.mk (f1.num * f2.num) (f1.den * f2.den)

end P0

namespace Hpp

/-- Embeds `Fraction::normalize` of `src/include/projgeom/fractions.hpp`
(lines 98-108): compute `common = gcd(_num, _den)`; if `common` is `0` or
`1` return unchanged (note: without touching the sign of `_den`);
otherwise negate `common` when `_den < 0` and divide both components. -/
def normalize (f : Fraction) : Fraction :=
  let common := Fun.gcd f.num f.den
  if common = 1 ∨ common = 0 then f
  else
    let common := if f.den < 0 then -common else common
    Fraction.mk (f.num.tdiv common) (f.den.tdiv common)

/-- Embeds the two-argument constructor `Fraction(Z num, Z den)` of
`src/include/projgeom/fractions.hpp` (lines 94-96). -/
def mk (num den : ℤ) : Fraction := normalize (Fraction.mk num den)

/-- Embeds `Fraction::operator==` of `src/include/projgeom/fractions.hpp`
(lines 159-164), instantiated at `U = Z`. -/
def eq (a b : Fraction) : Bool :=
  if a.den = b.den then a.num = b.num
  else a.num * b.den = a.den * b.num

/-- Embeds `Fraction::operator<` of `src/include/projgeom/fractions.hpp`
(lines 175-180), instantiated at `U = Z`. -/
def lt (a b : Fraction) : Bool :=
  if a.den = b.den then a.num < b.num
  else a.num * b.den < a.den * b.num

/-- Embeds `Fraction::operator>` of `src/include/projgeom/fractions.hpp`
(lines 204-206): `return !(rhs < *this);` (note the negation). -/
def gt (a b : Fraction) : Bool := !(lt b a)

/-- Embeds `Fraction::reciprocal()` of `src/include/projgeom/fractions.hpp`
(lines 298-300): `std::swap(_num, _den);` with no sign correction. -/
def reciprocal (f : Fraction) : Fraction := Fraction.mk f.den f.num

/-- Embeds `Fraction::operator*(const Fraction&)` of
`src/include/projgeom/fractions.hpp` (lines 343-347): multiply
componentwise, then normalize through the constructor. -/
def mul (a b : Fraction) : Fraction := mk (a.num * b.num) (a.den * b.den)

/-- Embeds `Fraction::operator/(Fraction)` of
`src/include/projgeom/fractions.hpp` (lines 355-358):
`frac.reciprocal(); return *this * frac;`. -/
def div (a b : Fraction) : Fraction := mul a (reciprocal b)

/-- Embeds `Fraction::operator*=(const Z&)` of
`src/include/projgeom/fractions.hpp` (lines 465-479). -/
def mulScalar (f : Fraction) (i : ℤ) : Fraction :=
  let common := Fun.gcd i f.den
  if common = 1 then Fraction.mk (f.num * i) f.den
  else Fraction.mk (f.num * (i.tdiv common)) (f.den.tdiv common)

/-- Embeds `Fraction::operator/=(const Z&)` of
`src/include/projgeom/fractions.hpp` (lines 495-509). -/
def divScalar (f : Fraction) (i : ℤ) : Fraction :=
  let common := Fun.gcd f.num i
  if common = 1 then Fraction.mk f.num (f.den * i)
  else Fraction.mk (f.num.tdiv common) (f.den * (i.tdiv common))

end Hpp

/-- The canonical-form invariant claimed by the specification, with the
signed-infinity convention of the `part_000` variant: the denominator is
never negative; a zero denominator carries only a sign in the numerator;
a nonzero denominator is coprime to the numerator. -/
def Canonical (f : Fraction) : Prop :=
  0 ≤ f.den ∧ (f.den = 0 → f.num.natAbs ≤ 1) ∧ (f.den ≠ 0 → Int.gcd f.num f.den = 1)

instance (f : Fraction) : Decidable (Canonical f) := by
  unfold Canonical; infer_instance


/-- A pair reduced by a common factor equal to the gcd is coprime. -/
theorem coprime_of_factor (c x y : ℤ) (hc : c ≠ 0)
    (hg : Fun.gcd (c * x) (c * y) = c) : Int.gcd x y = 1 := by
  rw [Fun.gcd_eq] at hg
  have h3 : c * (Int.gcd x y : ℤ) ∣ c * x := mul_dvd_mul_left c Int.gcd_dvd_left
  have h4 : c * (Int.gcd x y : ℤ) ∣ c * y := mul_dvd_mul_left c Int.gcd_dvd_right
  have h5 : c * (Int.gcd x y : ℤ) ∣ c * 1 := by
    rw [mul_one]
    have h6 := Int.dvd_gcd h3 h4
    rwa [hg] at h6
  have h7 : (Int.gcd x y : ℤ) ∣ (1 : ℤ) := (mul_dvd_mul_iff_left hc).mp h5
  have h8 : Int.gcd x y ∣ 1 := by exact_mod_cast h7
  exact Nat.dvd_one.mp h8

/-- A signed integer of absolute value at most one is its own sign. -/
theorem sign_eq_self_of_natAbs_le {n : ℤ} (h : n.natAbs ≤ 1) : Int.sign n = n := by
  have h1 : n = -1 ∨ n = 0 ∨ n = 1 := by omega
  rcases h1 with h | h | h <;> subst h <;> decide

theorem natAbs_sign_le (n : ℤ) : (Int.sign n).natAbs ≤ 1 := by
  rcases Int.lt_trichotomy n 0 with h | h | h
  · rw [Int.sign_eq_neg_one_of_neg h]; decide
  · subst h; decide
  · rw [Int.sign_eq_one_of_pos h]; decide

namespace P0

theorem normalize_nonneg (n d : ℤ) (hd : ¬ d < 0) :
    normalize ⟨n, d⟩ = (if Fun.gcd n d = 1 ∨ Fun.gcd n d = 0 then (⟨n, d⟩ : Fraction)
      else ⟨n.tdiv (Fun.gcd n d), d.tdiv (Fun.gcd n d)⟩) := by
  simp only [normalize, if_neg hd]

theorem normalize_negden (n d : ℤ) (hd : d < 0) :
    normalize ⟨n, d⟩ = normalize ⟨-n, -d⟩ := by
  simp only [normalize, if_pos hd, if_neg (show ¬ -d < 0 by omega)]

/-- Core facts about `normalize` on a positive denominator: the result has
a positive denominator, is coprime, and divides the input pair exactly. -/
theorem normalize_spec_pos (n d : ℤ) (hd : 0 < d) :
    0 < (normalize ⟨n, d⟩).den ∧
    Int.gcd (normalize ⟨n, d⟩).num (normalize ⟨n, d⟩).den = 1 ∧
    ∃ k : ℤ, 0 < k ∧ n = (normalize ⟨n, d⟩).num * k ∧ d = (normalize ⟨n, d⟩).den * k := by
  rw [normalize_nonneg n d (by omega)]
  set c := Fun.gcd n d with hcdef
  have hc0 : c ≠ 0 := fun h => by
    have h1 := Fun.gcd_eq_zero_iff.mp (hcdef ▸ h)
    omega
  by_cases h1 : c = 1 ∨ c = 0
  · have hone : c = 1 := by tauto
    rw [if_pos h1]
    refine ⟨hd, ?_, 1, one_pos, (mul_one n).symm, (mul_one d).symm⟩
    have h2 := Fun.gcd_eq n d
    rw [← hcdef, hone] at h2
    exact_mod_cast h2.symm
  · rw [if_neg h1]
    obtain ⟨n', hn'⟩ : c ∣ n := hcdef ▸ Fun.gcd_dvd_left n d
    obtain ⟨d', hd'⟩ : c ∣ d := hcdef ▸ Fun.gcd_dvd_right n d
    have htn : n.tdiv c = n' := by rw [hn']; exact Int.mul_tdiv_cancel_left n' hc0
    have htd : d.tdiv c = d' := by rw [hd']; exact Int.mul_tdiv_cancel_left d' hc0
    have hcpos : 0 < c := lt_of_le_of_ne (hcdef ▸ Fun.gcd_nonneg n d) (Ne.symm hc0)
    have hd'pos : 0 < d' := by
      rcases le_or_lt d' 0 with h' | h'
      · exfalso
        have h2 : c * d' ≤ 0 := mul_nonpos_of_nonneg_of_nonpos hcpos.le h'
        linarith [hd'.ge, hd'.le]
      · exact h'
    refine ⟨by simpa [htd] using hd'pos, ?_, c, hcpos, ?_, ?_⟩
    · simp only [htn, htd]
      exact coprime_of_factor c n' d' hc0 (by rw [← hn', ← hd', hcdef])
    · simp only [htn]
      rw [hn']; ring
    · simp only [htd]
      rw [hd']; ring

theorem normalize_den_zero (n : ℤ) : normalize ⟨n, 0⟩ = ⟨Int.sign n, 0⟩ := by
  rw [normalize_nonneg n 0 (lt_irrefl 0)]
  have hc : Fun.gcd n 0 = (n.natAbs : ℤ) := by
    rw [Fun.gcd_eq, Int.gcd_zero_right]
  rw [hc]
  by_cases h : (n.natAbs : ℤ) = 1 ∨ (n.natAbs : ℤ) = 0
  · rw [if_pos h]
    have h1 : n.natAbs ≤ 1 := by omega
    rw [sign_eq_self_of_natAbs_le h1]
  · rw [if_neg h]
    have habs : (n.natAbs : ℤ) ≠ 0 := by omega
    have h1 : n.tdiv (n.natAbs : ℤ) = n.sign := by
      nth_rewrite 1 [← Int.sign_mul_natAbs n]
      exact Int.mul_tdiv_cancel _ habs
    rw [h1, Int.zero_tdiv]

theorem mk_den_pos (n d : ℤ) (hd : d ≠ 0) : 0 < (mk n d).den := by
  rw [mk]
  rcases lt_or_gt_of_ne hd with h | h
  · rw [normalize_negden n d h]
    exact (normalize_spec_pos (-n) (-d) (by omega)).1
  · exact (normalize_spec_pos n d h).1

theorem mk_gcd (n d : ℤ) (hd : d ≠ 0) : Int.gcd (mk n d).num (mk n d).den = 1 := by
  rw [mk]
  rcases lt_or_gt_of_ne hd with h | h
  · rw [normalize_negden n d h]
    exact (normalize_spec_pos (-n) (-d) (by omega)).2.1
  · exact (normalize_spec_pos n d h).2.1

theorem mk_factor (n d : ℤ) (hd : d ≠ 0) :
    ∃ k : ℤ, k ≠ 0 ∧ n = (mk n d).num * k ∧ d = (mk n d).den * k := by
  rw [mk]
  rcases lt_or_gt_of_ne hd with h | h
  · rw [normalize_negden n d h]
    obtain ⟨k, hk, hn, hdk⟩ := (normalize_spec_pos (-n) (-d) (by omega)).2.2
    exact ⟨-k, by omega, by rw [mul_neg, ← hn, neg_neg], by rw [mul_neg, ← hdk, neg_neg]⟩
  · obtain ⟨k, hk, hn, hdk⟩ := (normalize_spec_pos n d h).2.2
    exact ⟨k, by omega, hn, hdk⟩

theorem mk_val (n d : ℤ) (hd : d ≠ 0) : (mk n d).val = (n : ℚ) / (d : ℚ) := by
  have hpos := mk_den_pos n d hd
  obtain ⟨k, hk, hn, hdk⟩ := mk_factor n d hd
  set F := mk n d with hF
  have hkQ : (k : ℚ) ≠ 0 := by exact_mod_cast hk
  have hdenQ : (F.den : ℚ) ≠ 0 := by exact_mod_cast hpos.ne'
  rw [Fraction.val]
  conv_rhs => rw [hn, hdk]
  push_cast
  field_simp
  ring

theorem mk_den_zero (n : ℤ) : mk n 0 = ⟨Int.sign n, 0⟩ := by
  rw [mk, normalize_den_zero]

theorem mk_canonical (n d : ℤ) : Canonical (mk n d) := by
  by_cases hd : d = 0
  · subst hd
    rw [mk_den_zero]
    exact ⟨le_refl 0, fun _ => natAbs_sign_le n, fun h => absurd rfl h⟩
  · exact ⟨(mk_den_pos n d hd).le, fun h => absurd h (mk_den_pos n d hd).ne',
      fun _ => mk_gcd n d hd⟩

end P0

namespace P0

theorem neg_den (f : Fraction) : (neg f).den = f.den := rfl

theorem neg_num (f : Fraction) : (neg f).num = -f.num := rfl

theorem neg_val (f : Fraction) : (neg f).val = -f.val := by
  rw [Fraction.val, Fraction.val, neg_den, neg_num]
  push_cast
  ring

/-- `operator==` of `part_000` decides equality of the denoted rational
values whenever both denominators are nonzero. -/
theorem eq_true_iff (a b : Fraction) (ha : a.den ≠ 0) (hb : b.den ≠ 0) :
    eq a b = true ↔ a.val = b.val := by
  have haQ : (a.den : ℚ) ≠ 0 := by exact_mod_cast ha
  have hbQ : (b.den : ℚ) ≠ 0 := by exact_mod_cast hb
  have hval : (a.val = b.val) ↔ a.num * b.den = b.num * a.den := by
    rw [Fraction.val, Fraction.val, div_eq_div_iff haQ hbQ]
    exact ⟨fun h => by exact_mod_cast h, fun h => by exact_mod_cast h⟩
  rw [hval]
  simp only [eq]
  by_cases hden : a.den = b.den
  · simp only [if_pos hden, decide_eq_true_eq]
    constructor
    · intro h; rw [h, hden]
    · intro h
      rw [hden] at h
      exact mul_right_cancel₀ hb h
  · simp only [if_neg hden]
    set c := Fun.gcd a.den b.den with hcdef
    have hc0 : c ≠ 0 := fun h => ha (Fun.gcd_eq_zero_iff.mp (hcdef ▸ h)).1
    rw [if_neg hc0]
    simp only [decide_eq_true_eq]
    obtain ⟨l, hl⟩ : c ∣ a.den := hcdef ▸ Fun.gcd_dvd_left _ _
    obtain ⟨r, hr⟩ : c ∣ b.den := hcdef ▸ Fun.gcd_dvd_right _ _
    have htl : a.den.tdiv c = l := by rw [hl]; exact Int.mul_tdiv_cancel_left l hc0
    have htr : b.den.tdiv c = r := by rw [hr]; exact Int.mul_tdiv_cancel_left r hc0
    rw [htl, htr]
    constructor
    · intro h
      rw [hl, hr]
      calc a.num * (c * r) = c * (r * a.num) := by ring
        _ = c * (l * b.num) := by rw [h]
        _ = b.num * (c * l) := by ring
    · intro h
      have h2 : c * (r * a.num) = c * (l * b.num) := by
        calc c * (r * a.num) = a.num * (c * r) := by ring
          _ = a.num * b.den := by rw [← hr]
          _ = b.num * a.den := h
          _ = b.num * (c * l) := by rw [← hl]
          _ = c * (l * b.num) := by ring
      exact mul_left_cancel₀ hc0 h2

/-- `operator+` of `part_000` on nonzero denominators: the result has a
positive denominator and denotes the exact rational sum. -/
theorem add_spec (a b : Fraction) (ha : a.den ≠ 0) (hb : b.den ≠ 0) :
    0 < (add a b).den ∧ (add a b).val = a.val + b.val := by
  have haQ : (a.den : ℚ) ≠ 0 := by exact_mod_cast ha
  have hbQ : (b.den : ℚ) ≠ 0 := by exact_mod_cast hb
  simp only [add]
  by_cases hden : a.den = b.den
  · rw [if_pos hden]
    refine ⟨mk_den_pos _ _ ha, ?_⟩
    rw [mk_val _ _ ha, Fraction.val, Fraction.val, ← hden]
    push_cast
    rw [div_add_div_same]
  · rw [if_neg hden]
    set c := Fun.gcd a.den b.den with hcdef
    have hc0 : c ≠ 0 := fun h => ha (Fun.gcd_eq_zero_iff.mp (hcdef ▸ h)).1
    rw [if_neg hc0]
    obtain ⟨l, hl⟩ : c ∣ a.den := hcdef ▸ Fun.gcd_dvd_left _ _
    obtain ⟨r, hr⟩ : c ∣ b.den := hcdef ▸ Fun.gcd_dvd_right _ _
    have htl : a.den.tdiv c = l := by rw [hl]; exact Int.mul_tdiv_cancel_left l hc0
    have htr : b.den.tdiv c = r := by rw [hr]; exact Int.mul_tdiv_cancel_left r hc0
    rw [htl, htr]
    have hr0 : r ≠ 0 := fun h => hb (by rw [hr, h, mul_zero])
    have hl0 : l ≠ 0 := fun h => ha (by rw [hl, h, mul_zero])
    have hd0 : a.den * r ≠ 0 := mul_ne_zero ha hr0
    refine ⟨mk_den_pos _ _ hd0, ?_⟩
    rw [mk_val _ _ hd0, Fraction.val, Fraction.val, hl, hr]
    have hcQ : (c : ℚ) ≠ 0 := by exact_mod_cast hc0
    have hlQ : (l : ℚ) ≠ 0 := by exact_mod_cast hl0
    have hrQ : (r : ℚ) ≠ 0 := by exact_mod_cast hr0
    push_cast
    field_simp
    ring

/-- Adding a (collapsed) infinity on the left to a finite fraction
returns the infinity unchanged. -/
theorem add_inf_left (a b : Fraction) (ha : a.den = 0) (hna : a.num.natAbs ≤ 1)
    (hb : 0 < b.den) : add a b = ⟨a.num, 0⟩ := by
  have hden : a.den ≠ b.den := by omega
  simp only [add, if_neg hden]
  have hc : Fun.gcd a.den b.den = b.den := by
    rw [ha, Fun.gcd_eq, Int.gcd_zero_left, Int.natAbs_of_nonneg hb.le]
  rw [hc, if_neg hb.ne', ha, Int.zero_tdiv, Int.tdiv_self hb.ne']
  simp only [one_mul, zero_mul, add_zero, zero_mul]
  rw [mk_den_zero, sign_eq_self_of_natAbs_le hna]

/-- Adding a (collapsed) infinity on the right to a finite fraction
returns the infinity. -/
theorem add_inf_right (a b : Fraction) (ha : 0 < a.den) (hb : b.den = 0)
    (hnb : b.num.natAbs ≤ 1) : add a b = ⟨b.num, 0⟩ := by
  have hden : a.den ≠ b.den := by omega
  simp only [add, if_neg hden]
  have hc : Fun.gcd a.den b.den = a.den := by
    rw [hb, Fun.gcd_eq, Int.gcd_zero_right, Int.natAbs_of_nonneg ha.le]
  rw [hc, if_neg ha.ne', hb, Int.zero_tdiv, Int.tdiv_self ha.ne']
  simp only [one_mul, zero_mul, zero_add, mul_zero]
  rw [mk_den_zero, sign_eq_self_of_natAbs_le hnb]

/-- Adding two zero-denominator fractions collapses the numerator sum to
its sign over the zero denominator. -/
theorem add_inf_inf (a b : Fraction) (ha : a.den = 0) (hb : b.den = 0) :
    add a b = ⟨Int.sign (a.num + b.num), 0⟩ := by
  have hden : a.den = b.den := by rw [ha, hb]
  simp only [add]
  rw [if_pos hden, ha]
  exact mk_den_zero _

end P0

namespace Hpp

theorem normalize_den_zero_hpp (n : ℤ) : normalize ⟨n, 0⟩ = ⟨Int.sign n, 0⟩ := by
  simp only [normalize]
  have hc : Fun.gcd n 0 = (n.natAbs : ℤ) := by
    rw [Fun.gcd_eq, Int.gcd_zero_right]
  rw [hc]
  by_cases h : (n.natAbs : ℤ) = 1 ∨ (n.natAbs : ℤ) = 0
  · rw [if_pos h]
    have h1 : n.natAbs ≤ 1 := by omega
    rw [sign_eq_self_of_natAbs_le h1]
  · rw [if_neg h, if_neg (show ¬ (0 : ℤ) < 0 from lt_irrefl 0)]
    have habs : (n.natAbs : ℤ) ≠ 0 := by omega
    have h1 : n.tdiv (n.natAbs : ℤ) = n.sign := by
      nth_rewrite 1 [← Int.sign_mul_natAbs n]
      exact Int.mul_tdiv_cancel _ habs
    rw [h1, Int.zero_tdiv]

theorem mk_den_zero_hpp (n : ℤ) : mk n 0 = ⟨Int.sign n, 0⟩ := by
  rw [mk, normalize_den_zero_hpp]

end Hpp

namespace P0

theorem mk_negden (n d : ℤ) (hd : d < 0) : mk n d = mk (-n) (-d) := by
  simp only [mk]
  rw [normalize_negden n d hd]

theorem mk_neg_num_nonneg (n d : ℤ) (hd : ¬ d < 0) :
    mk (-n) d = ⟨-(mk n d).num, (mk n d).den⟩ := by
  simp only [mk]
  rw [normalize_nonneg (-n) d hd, normalize_nonneg n d hd, Fun.gcd_neg_left]
  by_cases h : Fun.gcd n d = 1 ∨ Fun.gcd n d = 0
  · rw [if_pos h, if_pos h]
  · rw [if_neg h, if_neg h]
    simp only [Int.neg_tdiv]

/-- Negating the numerator argument of the normalizing constructor negates
the numerator of the result and keeps its denominator. -/
theorem mk_neg_num (n d : ℤ) : mk (-n) d = ⟨-(mk n d).num, (mk n d).den⟩ := by
  by_cases hd : d < 0
  · have h1 : mk (-n) d = mk n (-d) := by
      rw [mk_negden (-n) d hd, neg_neg]
    have h2 : mk n d = mk (-n) (-d) := mk_negden n d hd
    rw [h1, h2]
    have h3 := mk_neg_num_nonneg (-n) (-d) (show ¬ -d < 0 by omega)
    rwa [neg_neg] at h3
  · exact mk_neg_num_nonneg n d hd

/-- In the `part_000` variant, `operator/=` (hence `operator/`) computes
exactly what `operator*=` computes on the reciprocal of the divisor. -/
theorem div_eq_mul_reciprocal (a b : Fraction) : div a b = mul a (reciprocal b) := by
  by_cases h : b.num < 0
  · have hrec : reciprocal b = ⟨-b.den, -b.num⟩ := by
      simp only [reciprocal]
      rw [if_pos h]
    rw [hrec]
    simp only [div, mul]
    have h1 : mk a.num b.num = ⟨-(mk a.num (-b.num)).num, (mk a.num (-b.num)).den⟩ := by
      rw [mk_negden a.num b.num h]
      exact mk_neg_num a.num (-b.num)
    have h4 : mk (-b.den) a.den = ⟨-(mk b.den a.den).num, (mk b.den a.den).den⟩ :=
      mk_neg_num b.den a.den
    rw [h1, h4]
    refine congrArg₂ Fraction.mk ?_ ?_ <;> ring
  · have hrec : reciprocal b = ⟨b.den, b.num⟩ := by
      simp only [reciprocal]
      rw [if_neg h]
    rw [hrec]
    simp only [div, mul]

theorem mk_num_dvd (n d : ℤ) (hd : d ≠ 0) : (mk n d).num ∣ n := by
  obtain ⟨k, _, hn, _⟩ := mk_factor n d hd
  exact ⟨k, hn⟩

theorem mk_den_dvd (n d : ℤ) (hd : d ≠ 0) : (mk n d).den ∣ d := by
  obtain ⟨k, _, _, hdk⟩ := mk_factor n d hd
  exact ⟨k, hdk⟩

end P0

/-- Two products are coprime when the factors are pairwise coprime. -/
theorem gcd_mul_eq_one {x u y v : ℤ} (hxu : Int.gcd x u = 1) (hyv : Int.gcd y v = 1)
    (hxv : Int.gcd x v = 1) (hyu : Int.gcd y u = 1) : Int.gcd (x * y) (u * v) = 1 := by
  have h : Nat.Coprime (x.natAbs * y.natAbs) (u.natAbs * v.natAbs) :=
    Nat.Coprime.mul (Nat.Coprime.mul_right hxu hxv) (Nat.Coprime.mul_right hyu hyv)
  rw [Int.gcd, Int.natAbs_mul, Int.natAbs_mul]
  exact h

/-- Coprimality passes to divisors. -/
theorem gcd_eq_one_of_dvd {x y a b : ℤ} (hx : x ∣ a) (hy : y ∣ b)
    (h : Int.gcd a b = 1) : Int.gcd x y = 1 := by
  have hx' : x.natAbs ∣ a.natAbs := Int.natAbs_dvd_natAbs.mpr hx
  have hy' : y.natAbs ∣ b.natAbs := Int.natAbs_dvd_natAbs.mpr hy
  exact Nat.Coprime.coprime_dvd_right hy' (Nat.Coprime.coprime_dvd_left hx' h)

/-- Claim C1 (code bug in the `fractions.hpp` variant): the canonical-form
invariant `den() != 0 → den() > 0 ∧ gcd(|num()|, den()) == 1` is violated
by the public two-argument constructor of `fractions.hpp`: `normalize`
returns without touching the sign whenever `gcd(num, den)` is `0` or `1`,
so `Fraction(1, -2)` keeps the pair `(1, -2)` with `den() = -2 < 0`.
The `part_000` variant normalizes the same input to `(-1, 2)`. -/
theorem c1_canonical_form_violated_hpp :
    Hpp.mk 1 (-2) = ⟨1, -2⟩ ∧ (Hpp.mk 1 (-2)).den ≠ 0 ∧ ¬ 0 < (Hpp.mk 1 (-2)).den ∧
    P0.mk 1 (-2) = ⟨-1, 2⟩ := by decide

/-- Claim C2 (code bug in the `fractions.hpp` variant): trichotomy fails
because `operator>` is `!(rhs < *this)` instead of `rhs < *this`: for
`a = Fraction(1,3)` and `b = Fraction(1,2)` both `a < b` and `a > b`
return `true` while `a == b` is `false`, so not exactly one of the three
holds.  The `part_000` variant answers `a > b` correctly with `false`. -/
theorem c2_trichotomy_violated_hpp :
    Hpp.lt (Hpp.mk 1 3) (Hpp.mk 1 2) = true ∧
    Hpp.gt (Hpp.mk 1 3) (Hpp.mk 1 2) = true ∧
    Hpp.eq (Hpp.mk 1 3) (Hpp.mk 1 2) = false ∧
    P0.lt (P0.mk 1 3) (P0.mk 1 2) = true ∧
    P0.gt (P0.mk 1 3) (P0.mk 1 2) = false ∧
    P0.eq (P0.mk 1 3) (P0.mk 1 2) = false := by decide

/-- Claim C5 (code bug in the `fractions.hpp` variant): `reciprocal()`
there only swaps `num` and `den` and never negates, so for the canonical
fraction `(-1, 2)` it produces `(2, -1)` with `den = -1 < 0`, contradicting
the claimed sign restoration.  The `part_000` variant swaps and negates,
producing `(-2, 1)` with a non-negative denominator as claimed. -/
theorem c5_reciprocal_sign_violated_hpp :
    Hpp.reciprocal (Hpp.mk (-1) 2) = ⟨2, -1⟩ ∧
    ¬ 0 ≤ (Hpp.reciprocal (Hpp.mk (-1) 2)).den ∧
    P0.reciprocal (P0.mk (-1) 2) = ⟨-2, 1⟩ := by decide

/-- Claim C7: `fun::gcd` returns the non-negative greatest common divisor
of its (possibly negative) arguments; `gcd(0, n) = abs(n)` and
`gcd(0, 0) = 0`; for `m ≠ 0` it delegates to `gcd_recur`, which recurses
as `gcd_recur(n, m % n)` while the second argument is nonzero and returns
the absolute value of the surviving first argument once it is zero. -/
theorem c7_gcd_contract (m n : ℤ) :
    Fun.gcd m n = (Int.gcd m n : ℤ) ∧
    0 ≤ Fun.gcd m n ∧
    Fun.gcd m n ∣ m ∧
    Fun.gcd m n ∣ n ∧
    (∀ c : ℤ, c ∣ m → c ∣ n → c ∣ Fun.gcd m n) ∧
    Fun.gcd 0 n = Fun.abs n ∧
    Fun.gcd 0 0 = 0 ∧
    (m ≠ 0 → Fun.gcd m n = Fun.gcd_recur m n) ∧
    (n ≠ 0 → Fun.gcd_recur m n = Fun.gcd_recur n (Int.tmod m n)) ∧
    Fun.gcd_recur m 0 = Fun.abs m := by
  refine ⟨Fun.gcd_eq m n, Fun.gcd_nonneg m n, Fun.gcd_dvd_left m n, Fun.gcd_dvd_right m n,
    ?_, ?_, by decide, ?_, fun hn => Fun.gcd_recur_step m n hn, Fun.gcd_recur_base m⟩
  · intro c hcm hcn
    rw [Fun.gcd_eq]
    exact Int.dvd_gcd hcm hcn
  · rw [Fun.gcd, if_pos rfl]
  · intro hm
    rw [Fun.gcd, if_neg hm]

/-- Witness for C7 at the concrete input `(12, -8)`. -/
theorem c7_gcd_contract_witness :
    Fun.gcd 12 (-8) = (Int.gcd 12 (-8) : ℤ) ∧
    Fun.gcd 12 (-8) = 4 ∧
    Fun.gcd 12 (-8) = Fun.gcd_recur 12 (-8) ∧
    Fun.gcd_recur 12 (-8) = Fun.gcd_recur (-8) (Int.tmod 12 (-8)) ∧
    (2 : ℤ) ∣ Fun.gcd 12 (-8) := by
  have h := c7_gcd_contract 12 (-8)
  exact ⟨h.1, by decide, h.2.2.2.2.2.2.2.1 (by decide),
    h.2.2.2.2.2.2.2.2.1 (by decide), h.2.2.2.2.1 2 (by decide) (by decide)⟩

/-- Claim C9: in both source variants, the two-argument constructor with a
zero denominator produces `den == 0` and collapses the numerator to its
sign, one of `{-1, 0, 1}`, because normalization divides by
`gcd(n, 0) = |n|` whenever `|n| > 1`. -/
theorem c9_zero_den_constructor_sign (n : ℤ) :
    Hpp.mk n 0 = ⟨Int.sign n, 0⟩ ∧ (Hpp.mk n 0).den = 0 ∧ (Hpp.mk n 0).num.natAbs ≤ 1 ∧
    P0.mk n 0 = ⟨Int.sign n, 0⟩ ∧ (P0.mk n 0).den = 0 ∧ (P0.mk n 0).num.natAbs ≤ 1 := by
  rw [Hpp.mk_den_zero_hpp, P0.mk_den_zero]
  exact ⟨rfl, rfl, natAbs_sign_le n, rfl, rfl, natAbs_sign_le n⟩

/-- Claim C10: in the scalar compound operators of `fractions.hpp`,
`operator/=(i)` divides by `common = gcd(num, i)` and `operator*=(i)`
divides by `common = gcd(i, den)`; that divisor is zero exactly when the
two gcd arguments are both zero, so under the precondition that they are
not both zero no division by zero can occur inside the operator. -/
theorem c10_scalar_divisor_zero_iff (f : Fraction) (i : ℤ) :
    (Fun.gcd f.num i = 0 ↔ f.num = 0 ∧ i = 0) ∧
    (Fun.gcd i f.den = 0 ↔ i = 0 ∧ f.den = 0) :=
  ⟨Fun.gcd_eq_zero_iff, Fun.gcd_eq_zero_iff⟩

/-- Claim C6: division is multiplication by the reciprocal, in both source
variants and over the full domain of fraction values: `a / b` returns
exactly the fraction `a * r` where `r` is a copy of `b` after
`r.reciprocal()`. -/
theorem c6_div_is_mul_reciprocal (a b : Fraction) :
    P0.div a b = P0.mul a (P0.reciprocal b) ∧
    Hpp.div a b = Hpp.mul a (Hpp.reciprocal b) :=
  ⟨P0.div_eq_mul_reciprocal a b, rfl⟩

/-- Claim C4: for canonical fractions `a` and `b` (here with nonzero
denominators, so that rational values are denoted), `a * b` of the
`part_000` variant first reduces `a.num` against `b.den` and `b.num`
against `a.den` through the gcd-performing constructor and multiplies the
reduced parts; the returned fraction is canonical (positive denominator
coprime to the numerator) and denotes the exact product of the two
rational values. -/
theorem c4_multiplication (a b : Fraction)
    (ha : Canonical a) (hb : Canonical b) (ha0 : a.den ≠ 0) (hb0 : b.den ≠ 0) :
    P0.mul a b = ⟨(P0.mk a.num b.den).num * (P0.mk b.num a.den).num,
                  (P0.mk a.num b.den).den * (P0.mk b.num a.den).den⟩ ∧
    Canonical (P0.mul a b) ∧ 0 < (P0.mul a b).den ∧
    (P0.mul a b).val = a.val * b.val := by
  obtain ⟨had, _, hag⟩ := ha
  obtain ⟨hbd, _, hbg⟩ := hb
  have hga := hag ha0
  have hgb := hbg hb0
  have h1 : 0 < (P0.mk a.num b.den).den := P0.mk_den_pos _ _ hb0
  have h2 : 0 < (P0.mk b.num a.den).den := P0.mk_den_pos _ _ ha0
  have hmulnum : (P0.mul a b).num = (P0.mk a.num b.den).num * (P0.mk b.num a.den).num := rfl
  have hmulden : (P0.mul a b).den = (P0.mk a.num b.den).den * (P0.mk b.num a.den).den := rfl
  have hdenpos : 0 < (P0.mul a b).den := by
    rw [hmulden]; exact mul_pos h1 h2
  refine ⟨rfl, ⟨hdenpos.le, fun h => absurd h hdenpos.ne', fun _ => ?_⟩, hdenpos, ?_⟩
  · rw [hmulnum, hmulden]
    exact gcd_mul_eq_one (P0.mk_gcd a.num b.den hb0) (P0.mk_gcd b.num a.den ha0)
      (gcd_eq_one_of_dvd (P0.mk_num_dvd a.num b.den hb0) (P0.mk_den_dvd b.num a.den ha0) hga)
      (gcd_eq_one_of_dvd (P0.mk_num_dvd b.num a.den ha0) (P0.mk_den_dvd a.num b.den hb0) hgb)
  · have hv1 : (P0.mk a.num b.den).val = (a.num : ℚ) / (b.den : ℚ) := P0.mk_val _ _ hb0
    have hv2 : (P0.mk b.num a.den).val = (b.num : ℚ) / (a.den : ℚ) := P0.mk_val _ _ ha0
    have hsplit : (P0.mul a b).val = (P0.mk a.num b.den).val * (P0.mk b.num a.den).val := by
      rw [Fraction.val, Fraction.val, Fraction.val, hmulnum, hmulden]
      push_cast
      rw [div_mul_div_comm]
    rw [hsplit, hv1, hv2, Fraction.val, Fraction.val, div_mul_div_comm, div_mul_div_comm]
    ring

/-- Witness for C4 at `a = (2,3)`, `b = (3,4)`: the product is the
canonical `(1,2)` denoting `1/2 = 2/3 * 3/4`. -/
theorem c4_multiplication_witness :
    P0.mul ⟨2, 3⟩ ⟨3, 4⟩ = ⟨1, 2⟩ ∧ Canonical (P0.mul ⟨2, 3⟩ ⟨3, 4⟩) ∧
    (P0.mul ⟨2, 3⟩ ⟨3, 4⟩).val = (⟨2, 3⟩ : Fraction).val * (⟨3, 4⟩ : Fraction).val := by
  have h := c4_multiplication ⟨2, 3⟩ ⟨3, 4⟩ (by decide) (by decide) (by decide) (by decide)
  exact ⟨by decide, h.2.1, h.2.2.2⟩

/-- Claim C3 (amended: the pre-normalization denominator
`a.den * (b.den/common)` is *never larger* than the raw product
`a.den * b.den` — it is strictly smaller only when `common > 1`, and equal
when `common == 1`): for fractions with non-negative denominators, when
`a.den != b.den` and `common = gcd(a.den, b.den) != 0`, `a + b` of the
`part_000` variant scales each numerator by the other operand's reduced
denominator and combines them over `a.den * (b.den/common)`; when both
denominators are nonzero, the normalized result denotes the exact rational
sum; and when `common == 0` (both denominators zero) the result has
`den == 0` and a numerator collapsed to one of `{-1, 0, 1}`. -/
theorem c3_addition_algorithm (a b : Fraction) (hda : 0 ≤ a.den) (hdb : 0 ≤ b.den) :
    (a.den ≠ b.den → Fun.gcd a.den b.den ≠ 0 →
      P0.add a b =
        P0.mk (b.den.tdiv (Fun.gcd a.den b.den) * a.num +
               a.den.tdiv (Fun.gcd a.den b.den) * b.num)
          (a.den * (b.den.tdiv (Fun.gcd a.den b.den))) ∧
      a.den * (b.den.tdiv (Fun.gcd a.den b.den)) ≤ a.den * b.den ∧
      (a.den ≠ 0 → b.den ≠ 0 → (P0.add a b).val = a.val + b.val)) ∧
    (Fun.gcd a.den b.den = 0 →
      (P0.add a b).den = 0 ∧
      ((P0.add a b).num = -1 ∨ (P0.add a b).num = 0 ∨ (P0.add a b).num = 1)) := by
  constructor
  · intro hne hc
    refine ⟨?_, ?_, fun ha hb => (P0.add_spec a b ha hb).2⟩
    · simp only [P0.add, if_neg hne, if_neg hc]
    · set c := Fun.gcd a.den b.den with hcdef
      obtain ⟨r, hr⟩ : c ∣ b.den := hcdef ▸ Fun.gcd_dvd_right _ _
      have htr : b.den.tdiv c = r := by
        rw [hr]; exact Int.mul_tdiv_cancel_left r hc
      rw [htr]
      have hcpos : 0 < c := lt_of_le_of_ne (hcdef ▸ Fun.gcd_nonneg _ _) (Ne.symm hc)
      have hrnn : 0 ≤ r := by
        by_contra h'
        push_neg at h'
        have h2 : c * r < 0 := mul_neg_of_pos_of_neg hcpos h'
        linarith [hr.le, hr.ge]
      calc a.den * r ≤ a.den * (c * r) :=
            mul_le_mul_of_nonneg_left (le_mul_of_one_le_left hrnn (by omega)) hda
        _ = a.den * b.den := by rw [← hr]
  · intro hc
    obtain ⟨ha0, hb0⟩ := Fun.gcd_eq_zero_iff.mp hc
    rw [P0.add_inf_inf a b ha0 hb0]
    refine ⟨rfl, ?_⟩
    show Int.sign (a.num + b.num) = -1 ∨ Int.sign (a.num + b.num) = 0 ∨
      Int.sign (a.num + b.num) = 1
    have h := natAbs_sign_le (a.num + b.num)
    omega

/-- Counterexample to C3 as stated: at the canonically constructed
fractions `(1,2)` and `(1,3)` the gcd of the denominators is `1`, so the
pre-normalization denominator `2 * (3/1) = 6` equals the raw product
`2 * 3` instead of being strictly smaller. -/
theorem c3_strictness_counterexample :
    (P0.mk 1 2).den ≠ (P0.mk 1 3).den ∧
    Fun.gcd (P0.mk 1 2).den (P0.mk 1 3).den ≠ 0 ∧
    ¬((P0.mk 1 2).den *
        ((P0.mk 1 3).den.tdiv (Fun.gcd (P0.mk 1 2).den (P0.mk 1 3).den)) <
      (P0.mk 1 2).den * (P0.mk 1 3).den) ∧
    (P0.mk 1 2).den *
        ((P0.mk 1 3).den.tdiv (Fun.gcd (P0.mk 1 2).den (P0.mk 1 3).den)) =
      (P0.mk 1 2).den * (P0.mk 1 3).den := by decide

/-- Witness for C3 at `a = (1,2)`, `b = (1,3)`. -/
theorem c3_addition_algorithm_witness :
    P0.add ⟨1, 2⟩ ⟨1, 3⟩ =
      P0.mk ((3 : ℤ).tdiv (Fun.gcd 2 3) * 1 + (2 : ℤ).tdiv (Fun.gcd 2 3) * 1)
        (2 * (3 : ℤ).tdiv (Fun.gcd 2 3)) ∧
    (2 : ℤ) * ((3 : ℤ).tdiv (Fun.gcd 2 3)) ≤ 2 * 3 ∧
    (P0.add ⟨1, 2⟩ ⟨1, 3⟩).val = (⟨1, 2⟩ : Fraction).val + (⟨1, 3⟩ : Fraction).val := by
  have h := (c3_addition_algorithm ⟨1, 2⟩ ⟨1, 3⟩ (by decide) (by decide)).1
    (by decide) (by decide)
  exact ⟨h.1, h.2.1, h.2.2 (by decide) (by decide)⟩

/-- Claim C8 (amended: the round trip `(a + b) - b == a` holds for all
canonical fractions `a`, `b` of the `part_000` variant *except* when both
denominators are zero): with both denominators zero the sum collapses to
a sign and the round trip can land on `0/0`, which `operator==` separates
from `a` by direct numerator comparison. -/
theorem c8_add_sub_roundtrip (a b : Fraction) (ha : Canonical a) (hb : Canonical b)
    (h0 : ¬(a.den = 0 ∧ b.den = 0)) :
    P0.eq (P0.sub (P0.add a b) b) a = true := by
  obtain ⟨hda, hia, _⟩ := ha
  obtain ⟨hdb, hib, _⟩ := hb
  by_cases haz : a.den = 0
  · have hbz : b.den ≠ 0 := fun h => h0 ⟨haz, h⟩
    have hbp : 0 < b.den := lt_of_le_of_ne hdb (Ne.symm hbz)
    have hna : a.num.natAbs ≤ 1 := hia haz
    have hs : P0.add a b = ⟨a.num, 0⟩ := P0.add_inf_left a b haz hna hbp
    simp only [P0.sub]
    rw [hs]
    have ht : P0.add ⟨a.num, 0⟩ (P0.neg b) = ⟨a.num, 0⟩ :=
      P0.add_inf_left _ _ rfl hna (by rw [P0.neg_den]; exact hbp)
    rw [ht]
    simp only [P0.eq]
    rw [if_pos (show (0 : ℤ) = a.den from haz.symm)]
    simp
  · by_cases hbz : b.den = 0
    · have hap : 0 < a.den := lt_of_le_of_ne hda (Ne.symm haz)
      have hnb : b.num.natAbs ≤ 1 := hib hbz
      have hs : P0.add a b = ⟨b.num, 0⟩ := P0.add_inf_right a b hap hbz hnb
      simp only [P0.sub]
      rw [hs]
      have ht : P0.add ⟨b.num, 0⟩ (P0.neg b) = ⟨0, 0⟩ := by
        have h2 := P0.add_inf_inf ⟨b.num, 0⟩ (P0.neg b) rfl (by rw [P0.neg_den]; exact hbz)
        rw [h2]
        simp [P0.neg_num]
      rw [ht]
      simp only [P0.eq]
      rw [if_neg (show (0 : ℤ) ≠ a.den from fun h => haz h.symm)]
      have hc : Fun.gcd (0 : ℤ) a.den ≠ 0 := fun h => haz (Fun.gcd_eq_zero_iff.mp h).2
      rw [if_neg hc]
      simp [Int.zero_tdiv]
    · obtain ⟨hs_pos, hs_val⟩ := P0.add_spec a b haz hbz
      have hnb_den : (P0.neg b).den ≠ 0 := by rw [P0.neg_den]; exact hbz
      simp only [P0.sub]
      obtain ⟨ht_pos, ht_val⟩ := P0.add_spec (P0.add a b) (P0.neg b) hs_pos.ne' hnb_den
      rw [P0.eq_true_iff _ _ ht_pos.ne' haz, ht_val, hs_val, P0.neg_val]
      ring

/-- Counterexample to C8 as stated, over the full domain: for the
API-constructed infinity `a = b = Fraction(1, 0)` the round trip yields
the indeterminate `0/0`, which is not `==` to `(1, 0)`. -/
theorem c8_roundtrip_counterexample :
    Canonical (P0.mk 1 0) ∧
    P0.eq (P0.sub (P0.add (P0.mk 1 0) (P0.mk 1 0)) (P0.mk 1 0)) (P0.mk 1 0) = false := by
  decide

/-- Witness for C8 at the canonical fractions `(1,2)` and `(1,3)`. -/
theorem c8_add_sub_roundtrip_witness :
    P0.eq (P0.sub (P0.add ⟨1, 2⟩ ⟨1, 3⟩) ⟨1, 3⟩) ⟨1, 2⟩ = true :=
  c8_add_sub_roundtrip ⟨1, 2⟩ ⟨1, 3⟩ (by decide) (by decide) (by decide)
